import Mathlib

/-!
Verification of the Dial-up Modem Text Codec (`dialup_modem_codec.py`).

The development shallowly embeds the codec's core:

* the frame codec (`DialupModem.text_to_bits` / `DialupModem.bits_to_text`),
  modelled over `List ℕ`: a Python `str` is a list of Unicode code points
  (each `< 0x110000`), a `bytes` value is a list of naturals `< 256`, and a
  bit sequence is a list of naturals;
* the waveform synthesizer and the correlation demodulator
  (`DialupModem.encode_to_audio` / `DialupModem.correlate_with_frequency` /
  `DialupModem.decode_from_audio`), modelled over `List ℝ` (floating-point
  samples are idealized as reals).

Python exceptions that escape a function are modelled with `Option`:
`none` is an uncaught exception, `some v` a normal return.
-/

/-! ## Frame codec: text → bits (`DialupModem.text_to_bits`, lines 26–59) -/

/-- The 4-byte start marker `b'\xAA\x55\xAA\x55'` (line 41). -/
def start_marker : List ℕ := [0xAA, 0x55, 0xAA, 0x55]

/-- Bits of one byte, most significant first: `(byte_val >> i) & 1` for
`i = 7, …, 0` (lines 55–57). -/
def byte_to_bits (b : ℕ) : List ℕ :=
  [b / 128 % 2, b / 64 % 2, b / 32 % 2, b / 16 % 2,
   b / 8 % 2, b / 4 % 2, b / 2 % 2, b % 2]

/-- The nested loop of lines 55–57: every byte of the packet, MSB-first. -/
def bytes_to_bits : List ℕ → List ℕ
  | [] => []
  | b :: l => byte_to_bits b ++ bytes_to_bits l

/-- A code point a Python `str` may hold that `str.encode('utf-8')` accepts:
everything below `0x110000` except the surrogate range (encoding a lone
surrogate raises `UnicodeEncodeError`). -/
def validChar (c : ℕ) : Bool :=
  decide (c < 0x110000) && !(decide (0xD800 ≤ c) && decide (c < 0xE000))

/-- UTF-8 bytes of one valid code point (standard 1–4 byte encoding, as
produced by Python's `str.encode('utf-8')`). -/
def utf8EncodeChar (c : ℕ) : List ℕ :=
  if c < 0x80 then [c]
  else if c < 0x800 then [0xC0 + c / 0x40, 0x80 + c % 0x40]
  else if c < 0x10000 then
    [0xE0 + c / 0x1000, 0x80 + c / 0x40 % 0x40, 0x80 + c % 0x40]
  else
    [0xF0 + c / 0x40000, 0x80 + c / 0x1000 % 0x40, 0x80 + c / 0x40 % 0x40,
     0x80 + c % 0x40]

/-- `text.encode('utf-8')` (line 32): `none` models `UnicodeEncodeError`. -/
def utf8Encode : List ℕ → Option (List ℕ)
  | [] => some []
  | c :: cs =>
    if validChar c then (utf8Encode cs).map (fun l => utf8EncodeChar c ++ l)
    else none

/-- `DialupModem.text_to_bits` (lines 26–59).  A `UnicodeEncodeError` is
caught and turned into an empty bit list (lines 33–35).  The length field is
`data_length.to_bytes(2, 'little')` (line 45), which raises an uncaught
`OverflowError` — modelled as `none` — when the byte length needs more than
two bytes. -/
def text_to_bits (text : List ℕ) : Option (List ℕ) :=
  match utf8Encode text with
  | none => some []
  | some text_bytes =>
    if text_bytes.length < 0x10000 then
      some (bytes_to_bits (start_marker ++
        [text_bytes.length % 256, text_bytes.length / 256 % 256] ++ text_bytes))
    else none

/-- `DialupModem.encode_to_audio`'s return value (lines 128–175): `False`
when `text_to_bits` came back empty (lines 134–136), `True` after writing
the waveform; the `OverflowError` of `to_bytes` propagates uncaught. -/
def encode_to_audio_result (text : List ℕ) : Option Bool :=
  match text_to_bits text with
  | none => none
  | some [] => some false
  | some (_ :: _) => some true

/-! ## Frame codec: bits → text (`DialupModem.bits_to_text`, lines 61–126) -/

/-- One step of the packing loop of lines 70–75:
`byte_val = (byte_val << 1) | bits[i + j]`. -/
def pack_step (acc bit : ℕ) : ℕ := acc * 2 ||| bit

/-- A packed byte from eight bits (lines 72–74). -/
def pack8 (l : List ℕ) : ℕ := l.foldl pack_step 0

/-- The packing loop of lines 70–75: bytes from consecutive groups of eight
bits; a trailing group of fewer than eight bits is dropped
(`range(0, len(bits) - 7, 8)`). -/
def bits_to_bytes : List ℕ → List ℕ
  | b7 :: b6 :: b5 :: b4 :: b3 :: b2 :: b1 :: b0 :: rest =>
      pack8 [b7, b6, b5, b4, b3, b2, b1, b0] :: bits_to_bytes rest
  | _ => []

/-- The marker scan of lines 81–87: the first index whose 4-byte window
equals the start marker (`for i in range(len(bytes_data) - 3)`). -/
def findMarker (bytes_data : List ℕ) : Option ℕ :=
  (List.range (bytes_data.length - 3)).find?
    (fun i => decide (((bytes_data.drop i).take 4) = start_marker))

/-- Python's UTF-8 decoder with `errors='ignore'` (line 121): valid
sequences decode to their code point, bytes of an invalid or incomplete
sequence are skipped (CPython skips the maximal subpart of a valid
sequence and resumes at the first offending byte). -/
def decode_ignore : List ℕ → List ℕ
  | [] => []
  | b :: rest =>
    if b < 0x80 then b :: decode_ignore rest
    else if b < 0xC2 then decode_ignore rest
    else if b < 0xE0 then
      if rest.length < 1 then []
      else
        let b1 := rest.headD 0
        if 0x80 ≤ b1 ∧ b1 < 0xC0 then
          ((b - 0xC0) * 0x40 + (b1 - 0x80)) :: decode_ignore rest.tail
        else decode_ignore rest
    else if b < 0xF0 then
      if rest.length < 1 then []
      else
        let b1 := rest.headD 0
        if (b = 0xE0 ∧ 0xA0 ≤ b1 ∧ b1 < 0xC0) ∨
           (b = 0xED ∧ 0x80 ≤ b1 ∧ b1 < 0xA0) ∨
           (b ≠ 0xE0 ∧ b ≠ 0xED ∧ 0x80 ≤ b1 ∧ b1 < 0xC0) then
          if rest.length < 2 then []
          else
            let b2 := rest.tail.headD 0
            if 0x80 ≤ b2 ∧ b2 < 0xC0 then
              ((b - 0xE0) * 0x1000 + (b1 - 0x80) * 0x40 + (b2 - 0x80)) ::
                decode_ignore rest.tail.tail
            else decode_ignore rest.tail
        else decode_ignore rest
    else if b < 0xF5 then
      if rest.length < 1 then []
      else
        let b1 := rest.headD 0
        if (b = 0xF0 ∧ 0x90 ≤ b1 ∧ b1 < 0xC0) ∨
           (b = 0xF4 ∧ 0x80 ≤ b1 ∧ b1 < 0x90) ∨
           (b ≠ 0xF0 ∧ b ≠ 0xF4 ∧ 0x80 ≤ b1 ∧ b1 < 0xC0) then
          if rest.length < 2 then []
          else
            let b2 := rest.tail.headD 0
            if 0x80 ≤ b2 ∧ b2 < 0xC0 then
              if rest.length < 3 then []
              else
                let b3 := rest.tail.tail.headD 0
                if 0x80 ≤ b3 ∧ b3 < 0xC0 then
                  ((b - 0xF0) * 0x40000 + (b1 - 0x80) * 0x1000 +
                    (b2 - 0x80) * 0x40 + (b3 - 0x80)) :: decode_ignore rest.tail.tail.tail
                else decode_ignore rest.tail.tail
            else decode_ignore rest.tail
        else decode_ignore rest
    else decode_ignore rest
  termination_by l => l.length
  decreasing_by
    all_goals (simp only [List.length_tail, List.length_cons]; omega)

/-- `DialupModem.bits_to_text` (lines 61–126): needs 48 bits (line 63),
packs bytes, finds the marker (lines 81–92), bails out if fewer than two
bytes follow it (lines 94–97), reads the little-endian length (line 100),
clamps it to the bytes available (lines 107–111) and UTF-8-decodes the
slice with `errors='ignore'` (line 121). -/
def bits_to_text (bits : List ℕ) : List ℕ :=
  if bits.length < 48 then []
  else
    let bytes_data := bits_to_bytes bits
    match findMarker bytes_data with
    | none => []
    | some i =>
      let start_pos := i + 4
      if bytes_data.length ≤ start_pos + 2 then []
      else
        let data_length :=
          bytes_data.getD start_pos 0 + bytes_data.getD (start_pos + 1) 0 * 256
        let data_start := start_pos + 2
        let clamped :=
          if bytes_data.length < data_start + data_length then
            bytes_data.length - data_start
          else data_length
        decode_ignore ((bytes_data.drop data_start).take clamped)

/-! ## Samples per bit -/

/-- The synthesizer's sample count per bit, `int(self.bit_duration)` with
`bit_duration = sample_rate / baud_rate` (lines 18 and 155): float division
followed by `int` truncation, i.e. the floor of the exact ratio. -/
def encode_samples_per_bit (sample_rate baud_rate : ℕ) : ℕ :=
  sample_rate / baud_rate

/-- The demodulator's block size, `int(actual_bit_duration)` with
`actual_bit_duration = sample_rate / self.baud_rate` (lines 215–216). -/
def decode_samples_per_bit (sample_rate baud_rate : ℕ) : ℕ :=
  sample_rate / baud_rate

/-! ## Spec-side reformulations (written from the specification's words,
for comparison with the code-side definitions above) -/

/-- Spec wording: bits of a byte emitted "MSB-first per byte". -/
def msb_bits_spec (b : ℕ) : List ℕ :=
  (List.range 8).map (fun i => b / 2 ^ (7 - i) % 2)

/-- Spec wording: `[0xAA][0x55][0xAA][0x55][len_lo][len_hi][payload]`,
`len` the little-endian 16-bit unsigned byte count of the payload. -/
def spec_frame_bytes (payload : List ℕ) : List ℕ :=
  [0xAA, 0x55, 0xAA, 0x55] ++
    [payload.length % 256, payload.length / 256 % 256] ++ payload

/-- Spec wording: the frame's bytes serialized MSB-first per byte. -/
def spec_frame_bits (payload : List ℕ) : List ℕ :=
  (spec_frame_bytes payload).foldr (fun b acc => msb_bits_spec b ++ acc) []

/-! ## Analog layer (over `ℝ`) -/

noncomputable section

/-- `np.linspace(0, stop, n)`: `n` equally spaced points from `0` to
`stop` inclusive; `t i = stop * i / (n - 1)` (for `n = 1` NumPy yields
`[0.0]`, matched here because `x / 0 = 0` in `ℝ`). -/
def linspace (stop : ℝ) (n : ℕ) : List ℝ :=
  (List.range n).map (fun (i : ℕ) => stop * (i : ℝ) / ((n : ℝ) - 1))

/-- `np.sum(a * b)` for same-length sample arrays. -/
def listDot (a b : List ℝ) : ℝ := (List.zipWith (fun x y => x * y) a b).sum

/-- `DialupModem.correlate_with_frequency` (lines 177–188): dot products of
the segment with sine and cosine references over the segment's own time
span, quadrature-combined. -/
def correlate_with_frequency (signal : List ℝ) (freq sample_rate : ℝ) : ℝ :=
  let t := linspace ((signal.length : ℝ) / sample_rate) signal.length
  let corr_sin := listDot signal (t.map (fun x => Real.sin (2 * Real.pi * freq * x)))
  let corr_cos := listDot signal (t.map (fun x => Real.cos (2 * Real.pi * freq * x)))
  corr_sin ^ 2 + corr_cos ^ 2

/-- The tone block for one bit (lines 154–156):
`0.8 * np.sin(2 * np.pi * freq * t)` over
`t = np.linspace(0, 1/baud_rate, int(bit_duration))`. -/
def bit_signal (sample_rate baud_rate : ℕ) (freq : ℝ) : List ℝ :=
  (linspace (1 / (baud_rate : ℝ)) (encode_samples_per_bit sample_rate baud_rate)).map
    (fun x => 0.8 * Real.sin (2 * Real.pi * freq * x))

/-- The waveform built by `encode_to_audio` (lines 144–169): a 0.1 s
silence guard band, one tone block per bit, a closing guard band
(`int(0.1 * sample_rate)` samples of silence each). -/
def synthesize (bits : List ℕ) (sample_rate baud_rate : ℕ) (f0 f1 : ℝ) : List ℝ :=
  List.replicate (sample_rate / 10) 0 ++
    bits.foldr (fun bit acc =>
      bit_signal sample_rate baud_rate (if bit = 1 then f1 else f0) ++ acc) [] ++
    List.replicate (sample_rate / 10) 0

/-- The scan of lines 222–226: index of the first sample with
`abs(sample) > 0.01`, if any. -/
def first_above : List ℝ → Option ℕ
  | [] => none
  | x :: rest =>
    if 0.01 < |x| then some 0 else (first_above rest).map (fun i => i + 1)

/-- The effective signal start (lines 221–228): first above-threshold index
backed off by a quarter bit period, `max(0, i - samples_per_bit // 4)`;
`0` when no sample exceeds the threshold. -/
def find_start (audio : List ℝ) (samples_per_bit : ℕ) : ℕ :=
  match first_above audio with
  | none => 0
  | some i => i - samples_per_bit / 4

/-- The offsets visited by the block walk of line 237,
`range(0, total_samples - samples_per_bit, samples_per_bit)`. -/
def blockStarts (total samples_per_bit : ℕ) : List ℕ :=
  (List.range ((total - samples_per_bit + samples_per_bit - 1) / samples_per_bit)).map
    (fun k => k * samples_per_bit)

/-- The demodulation portion of `DialupModem.decode_from_audio`
(lines 214–262), on the already normalized samples: recompute the block
size from the supplied sample rate, drop leading silence, walk the signal
in blocks and decide each bit by comparing the two correlation powers
(`power_1 > power_0` → 1, else 0, lines 249–254).  `none` models the
`ValueError` that `range` with step 0 raises when
`sample_rate < baud_rate` (it is caught by `decode_from_audio`'s
blanket handler, which then returns the empty string). -/
def demodulate (audio : List ℝ) (sample_rate baud_rate : ℕ) (f0 f1 : ℝ) :
    Option (List ℕ) :=
  let samples_per_bit := decode_samples_per_bit sample_rate baud_rate
  if samples_per_bit = 0 then none
  else
    let a := audio.drop (find_start audio samples_per_bit)
    some ((blockStarts a.length samples_per_bit).map (fun i =>
      let segment := (a.drop i).take samples_per_bit
      let power_0 := correlate_with_frequency segment f0 (sample_rate : ℝ)
      let power_1 := correlate_with_frequency segment f1 (sample_rate : ℝ)
      if power_1 > power_0 then 1 else 0))

/-- Spec wording (tone detector): the sample instants "over the segment's
own time span". -/
def spec_time (n : ℕ) (sample_rate : ℝ) (i : ℕ) : ℝ :=
  (n : ℝ) / sample_rate * (i : ℝ) / ((n : ℝ) - 1)

/-- Spec wording: "the dot product of `segment` with a sine reference at
that frequency over the segment's own time span". -/
def spec_sin_corr (segment : List ℝ) (freq sample_rate : ℝ) : ℝ :=
  ∑ i ∈ Finset.range segment.length,
    segment.getD i 0 * Real.sin (2 * Real.pi * freq * spec_time segment.length sample_rate i)

/-- Spec wording: the corresponding cosine-reference dot product. -/
def spec_cos_corr (segment : List ℝ) (freq sample_rate : ℝ) : ℝ :=
  ∑ i ∈ Finset.range segment.length,
    segment.getD i 0 * Real.cos (2 * Real.pi * freq * spec_time segment.length sample_rate i)

end

/-! ## Packing lemmas -/

/-- One packing step on a genuine bit: `(acc << 1) | bit = acc * 2 + bit`. -/
theorem pack_step_bit (a c : ℕ) (h : c < 2) : pack_step a c = a * 2 + c := by
  unfold pack_step
  interval_cases c
  · simp
  · apply Nat.eq_of_testBit_eq
    intro i
    cases i with
    | zero =>
      simp only [Nat.testBit_lor, Nat.testBit_zero]
      have h1 : a * 2 % 2 = 0 := by omega
      have h2 : (a * 2 + 1) % 2 = 1 := by omega
      simp [h1, h2]
    | succ n =>
      rw [Nat.testBit_lor, Nat.testBit_add_one, Nat.testBit_add_one, Nat.testBit_add_one,
        show a * 2 / 2 = a from by omega, show (a * 2 + 1) / 2 = a from by omega,
        show (1 : ℕ) / 2 = 0 from rfl]
      simp

/-- Packing the eight MSB-first bits of a byte recovers the byte. -/
theorem pack8_byte (b : ℕ) : pack8 (byte_to_bits b) = b % 256 := by
  have m : ∀ x : ℕ, x % 2 < 2 := fun x => Nat.mod_lt _ (by omega)
  simp only [pack8, byte_to_bits, List.foldl]
  rw [pack_step_bit _ _ (m _), pack_step_bit _ _ (m _), pack_step_bit _ _ (m _),
    pack_step_bit _ _ (m _), pack_step_bit _ _ (m _), pack_step_bit _ _ (m _),
    pack_step_bit _ _ (m _), pack_step_bit _ _ (m _)]
  omega

/-- Fewer than eight bits pack to no byte at all. -/
theorem bits_to_bytes_short : ∀ l : List ℕ, l.length < 8 → bits_to_bytes l = []
  | [], _ => rfl
  | [_], _ => rfl
  | [_, _], _ => rfl
  | [_, _, _], _ => rfl
  | [_, _, _, _], _ => rfl
  | [_, _, _, _, _], _ => rfl
  | [_, _, _, _, _, _], _ => rfl
  | [_, _, _, _, _, _, _], _ => rfl
  | _ :: _ :: _ :: _ :: _ :: _ :: _ :: _ :: _, h => by
      simp only [List.length_cons] at h; omega

/-- Packing peels off one leading byte's worth of bits. -/
theorem bits_to_bytes_cons8 (b : ℕ) (l : List ℕ) :
    bits_to_bytes (byte_to_bits b ++ l) = b % 256 :: bits_to_bytes l := by
  show pack8 (byte_to_bits b) :: bits_to_bytes l = _
  rw [pack8_byte]

theorem bytes_to_bits_append (l1 l2 : List ℕ) :
    bytes_to_bits (l1 ++ l2) = bytes_to_bits l1 ++ bytes_to_bits l2 := by
  induction l1 with
  | nil => rfl
  | cons b t ih => simp [bytes_to_bits, ih]

theorem length_bytes_to_bits (l : List ℕ) : (bytes_to_bits l).length = 8 * l.length := by
  induction l with
  | nil => rfl
  | cons b t ih =>
    simp only [bytes_to_bits, List.length_append, List.length_cons, ih, byte_to_bits,
      List.length_nil]
    ring

/-- Every serialized bit is 0 or 1. -/
theorem mem_bytes_to_bits (l : List ℕ) (x : ℕ) (hx : x ∈ bytes_to_bits l) :
    x = 0 ∨ x = 1 := by
  induction l with
  | nil => simp [bytes_to_bits] at hx
  | cons b t ih =>
    simp only [bytes_to_bits, List.mem_append] at hx
    rcases hx with h | h
    · simp only [byte_to_bits, List.mem_cons, List.not_mem_nil, or_false] at h
      omega
    · exact ih h

/-- Packing the serialization of bytes below 256, truncated to `k` bits,
yields the first `k / 8` bytes back. -/
theorem bits_to_bytes_take (B : List ℕ) (hB : ∀ b ∈ B, b < 256) (k : ℕ) :
    bits_to_bytes ((bytes_to_bits B).take k) = B.take (k / 8) := by
  induction B generalizing k with
  | nil => simp [bytes_to_bits, bits_to_bytes]
  | cons b B ih =>
    by_cases hk : 8 ≤ k
    · have h1 : (bytes_to_bits (b :: B)).take k =
          byte_to_bits b ++ (bytes_to_bits B).take (k - 8) := by
        show (byte_to_bits b ++ bytes_to_bits B).take k = _
        rw [List.take_append_eq_append_take,
          List.take_of_length_le (show (byte_to_bits b).length ≤ k from by simp [byte_to_bits]; omega)]
        simp [byte_to_bits]
      rw [h1, bits_to_bytes_cons8, Nat.mod_eq_of_lt (hB b (by simp)),
        ih (fun x hx => hB x (by simp [hx])) (k - 8),
        show k / 8 = (k - 8) / 8 + 1 from by omega]
      rfl
    · have h1 : ((bytes_to_bits (b :: B)).take k).length < 8 := by
        simp only [List.length_take]
        omega
      rw [bits_to_bytes_short _ h1, show k / 8 = 0 from by omega]
      rfl

/-- The code-side MSB-first bit expansion agrees with the spec-side one. -/
theorem byte_to_bits_eq_spec (b : ℕ) : byte_to_bits b = msb_bits_spec b := by
  unfold msb_bits_spec
  rw [show List.range 8 = [0, 1, 2, 3, 4, 5, 6, 7] from rfl]
  norm_num [byte_to_bits]

theorem bytes_to_bits_eq_spec (l : List ℕ) :
    bytes_to_bits l = l.foldr (fun b acc => msb_bits_spec b ++ acc) [] := by
  induction l with
  | nil => rfl
  | cons b t ih => simp [bytes_to_bits, byte_to_bits_eq_spec, ih]

/-! ## UTF-8 encoding lemmas -/

/-- ASCII text encodes to itself. -/
theorem utf8Encode_replicate_ascii (n c : ℕ) (h : c < 0x80) :
    utf8Encode (List.replicate n c) = some (List.replicate n c) := by
  have hv : validChar c = true := by
    simp only [validChar, Bool.and_eq_true, Bool.not_eq_true', Bool.and_eq_false_iff,
      decide_eq_true_eq, decide_eq_false_iff_not]
    omega
  induction n with
  | zero => rfl
  | succ n ih =>
    rw [List.replicate_succ]
    simp only [utf8Encode, hv, if_true, ih, Option.map_some']
    rw [show utf8EncodeChar c = [c] from by simp [utf8EncodeChar, h]]
    rfl

/-- UTF-8 bytes of a valid code point are genuine bytes. -/
theorem utf8EncodeChar_lt_256 (c : ℕ) (hv : validChar c = true) :
    ∀ b ∈ utf8EncodeChar c, b < 256 := by
  have hc : c < 0x110000 := by
    simp only [validChar, Bool.and_eq_true, decide_eq_true_eq] at hv
    exact hv.1
  intro b hb
  unfold utf8EncodeChar at hb
  split at hb
  · simp only [List.mem_singleton] at hb; omega
  · split at hb
    · simp only [List.mem_cons, List.not_mem_nil, or_false] at hb; omega
    · split at hb
      · simp only [List.mem_cons, List.not_mem_nil, or_false] at hb; omega
      · simp only [List.mem_cons, List.not_mem_nil, or_false] at hb; omega

/-- All bytes of an encoded text are below 256. -/
theorem utf8Encode_lt_256 (text tb : List ℕ) (h : utf8Encode text = some tb) :
    ∀ b ∈ tb, b < 256 := by
  induction text generalizing tb with
  | nil =>
    simp only [utf8Encode, Option.some.injEq] at h
    subst h; simp
  | cons c cs ih =>
    simp only [utf8Encode] at h
    by_cases hv : validChar c = true
    · rw [if_pos hv] at h
      cases hcs : utf8Encode cs with
      | none => rw [hcs] at h; simp at h
      | some tb' =>
        rw [hcs] at h
        simp only [Option.map_some', Option.some.injEq] at h
        subst h
        intro b hb
        rcases List.mem_append.mp hb with h1 | h1
        · exact utf8EncodeChar_lt_256 c hv b h1
        · exact ih tb' hcs b h1
    · rw [if_neg hv] at h; simp at h

/-! ## Marker-scan lemmas -/

/-- If no window of the packed bytes matches the marker, the scan fails. -/
theorem findMarker_eq_none (bytes_data : List ℕ)
    (h : ∀ i, i < bytes_data.length → ((bytes_data.drop i).take 4) ≠ start_marker) :
    findMarker bytes_data = none := by
  rw [findMarker, List.find?_eq_none]
  intro i hi
  simp only [decide_eq_true_eq]
  exact h i (by have := List.mem_range.mp hi; omega)

/-- A byte sequence that starts with the marker is found at index 0. -/
theorem findMarker_head (bytes_data : List ℕ) (h4 : 4 ≤ bytes_data.length)
    (h : bytes_data.take 4 = start_marker) : findMarker bytes_data = some 0 := by
  rw [findMarker]
  obtain ⟨m, hm⟩ : ∃ m, bytes_data.length - 3 = m + 1 := ⟨bytes_data.length - 4, by omega⟩
  rw [hm, List.range_succ_eq_map]
  exact List.find?_cons_of_pos _ (by simp [h])

/-! ## Block-walk lemmas -/

theorem blockStarts_length (total spb : ℕ) :
    (blockStarts total spb).length = (total - spb + spb - 1) / spb := by
  simp [blockStarts]

theorem blockStarts_getD (total spb k : ℕ) (hk : k < (blockStarts total spb).length) :
    (blockStarts total spb).getD k 0 = k * spb := by
  rw [List.getD_eq_getElem _ _ hk]
  simp [blockStarts]

/-- A block is walked exactly when it ends strictly before the end of the
buffer: `range(0, total - spb, spb)` reaches offset `k * spb` iff
`k * spb < total - spb`. -/
theorem lt_blockStarts_length_iff (total spb k : ℕ) (h : 1 ≤ spb) :
    k < (blockStarts total spb).length ↔ k * spb + spb < total := by
  rw [blockStarts_length, Nat.lt_iff_add_one_le, Nat.le_div_iff_mul_le h,
    show (k + 1) * spb = k * spb + spb from by ring]
  generalize k * spb = x
  omega

/-! ## Zero-signal lemmas -/

theorem listDot_zero (l : List ℝ) (h : ∀ x ∈ l, x = 0) (r : List ℝ) :
    listDot l r = 0 := by
  induction l generalizing r with
  | nil => simp [listDot]
  | cons a t ih =>
    cases r with
    | nil => simp [listDot]
    | cons c rt =>
      have ha : a = 0 := h a (by simp)
      have ht : ∀ x ∈ t, x = 0 := fun x hx => h x (by simp [hx])
      simp only [listDot, List.zipWith_cons_cons, List.sum_cons] at *
      rw [ha, ih ht rt]
      ring

theorem correlate_zero (l : List ℝ) (f sr : ℝ) (h : ∀ x ∈ l, x = 0) :
    correlate_with_frequency l f sr = 0 := by
  simp only [correlate_with_frequency]
  rw [listDot_zero l h, listDot_zero l h]
  norm_num

theorem first_above_zero (l : List ℝ) (h : ∀ x ∈ l, x = 0) : first_above l = none := by
  induction l with
  | nil => rfl
  | cons a t ih =>
    have ha : a = 0 := h a (by simp)
    have hc : ¬ ((0.01 : ℝ) < |a|) := by rw [ha, abs_zero]; norm_num
    show (if (0.01 : ℝ) < |a| then some 0 else (first_above t).map (fun i => i + 1)) = none
    rw [if_neg hc, ih (fun x hx => h x (by simp [hx]))]
    rfl

theorem find_start_zero (l : List ℝ) (spb : ℕ) (h : ∀ x ∈ l, x = 0) :
    find_start l spb = 0 := by
  simp [find_start, first_above_zero l h]

/-- Demodulating pure silence: the alignment stays at 0 and every block
decides 0 (equal zero powers, ties to space). -/
theorem demodulate_replicate_zero (n sr baud : ℕ) (f0 f1 : ℝ)
    (h : decode_samples_per_bit sr baud ≠ 0) :
    demodulate (List.replicate n (0 : ℝ)) sr baud f0 f1 =
      some (List.replicate
        ((n - decode_samples_per_bit sr baud + decode_samples_per_bit sr baud - 1) /
          decode_samples_per_bit sr baud) 0) := by
  have hz : ∀ x ∈ List.replicate n (0 : ℝ), x = 0 := fun x hx => List.eq_of_mem_replicate hx
  simp only [demodulate, if_neg h, find_start_zero _ _ hz, List.drop_zero,
    List.length_replicate]
  congr 1
  refine (List.eq_replicate_of_mem fun x hx => ?_).trans
    (by rw [List.length_map, blockStarts_length])
  obtain ⟨i, hi, rfl⟩ := List.mem_map.mp hx
  have hseg : ∀ y ∈ ((List.replicate n (0 : ℝ)).drop i).take (decode_samples_per_bit sr baud),
      y = 0 :=
    fun y hy => List.eq_of_mem_replicate (List.drop_subset _ _ (List.take_subset _ _ hy))
  rw [correlate_zero _ _ _ hseg, correlate_zero _ _ _ hseg]
  simp

/-- Four zero samples at two samples per bit demodulate to the single bit 0:
only the first of the two full blocks is walked. -/
theorem demod_zero_four :
    demodulate (List.replicate 4 (0 : ℝ)) 2 1 1070 1270 = some [0] := by
  rw [demodulate_replicate_zero 4 2 1 1070 1270 (by decide)]
  rfl

/-! ## Correlation-sum reformulation -/

theorem listDot_map_range (l : List ℝ) (g : ℕ → ℝ) :
    listDot l ((List.range l.length).map g) =
      ∑ i ∈ Finset.range l.length, l.getD i 0 * g i := by
  induction l generalizing g with
  | nil => simp [listDot]
  | cons a t ih =>
    rw [show (a :: t).length = t.length + 1 from rfl, List.range_succ_eq_map,
      List.map_cons, List.map_map]
    have h1 : listDot (a :: t) (g 0 :: ((List.range t.length).map (g ∘ Nat.succ))) =
        a * g 0 + listDot t ((List.range t.length).map (g ∘ Nat.succ)) := by
      simp [listDot]
    rw [h1, ih (g ∘ Nat.succ), Finset.sum_range_succ']
    simp only [List.getD_cons_succ, List.getD_cons_zero, Function.comp]
    ring

/-! ## Claims -/

/-- Claim C2 (amended): for every UTF-8-encodable string whose UTF-8 byte
length is at most 65535, `text_to_bits` emits, MSB-first per byte, exactly
the marker bytes `0xAA 0x55 0xAA 0x55`, then the 2-byte little-endian UTF-8
byte length, then the UTF-8 payload bytes; the bit sequence has length
`48 + 8 * utf8_len` and every element is 0 or 1.  (The original claim,
without the length bound, fails: see the counterexample.) -/
theorem claim_C2_frame_format (text text_bytes : List ℕ) (bit : ℕ)
    (henc : utf8Encode text = some text_bytes) (hlen : text_bytes.length ≤ 65535)
    (hmem : bit ∈ (text_to_bits text).getD []) :
    text_to_bits text = some (spec_frame_bits text_bytes) ∧
    ((text_to_bits text).getD []).length = 48 + 8 * text_bytes.length ∧
    (bit = 0 ∨ bit = 1) := by
  have ht : text_to_bits text = some (bytes_to_bits (start_marker ++
      [text_bytes.length % 256, text_bytes.length / 256 % 256] ++ text_bytes)) := by
    simp only [text_to_bits, henc]
    rw [if_pos (by omega)]
  refine ⟨?_, ?_, ?_⟩
  · rw [ht, bytes_to_bits_eq_spec]
    rfl
  · rw [ht]
    simp only [Option.getD_some]
    rw [length_bytes_to_bits]
    simp only [List.length_append, List.length_cons, List.length_nil, start_marker]
    omega
  · rw [ht] at hmem
    simp only [Option.getD_some] at hmem
    exact mem_bytes_to_bits _ _ hmem

/-- Witness for claim C2 at the text "Hi" (`[72, 105]`) and the bit 1. -/
theorem claim_C2_witness :
    text_to_bits [72, 105] = some (spec_frame_bits [72, 105]) ∧
    ((text_to_bits [72, 105]).getD []).length = 48 + 8 * ([72, 105] : List ℕ).length ∧
    ((1 : ℕ) = 0 ∨ (1 : ℕ) = 1) :=
  claim_C2_frame_format [72, 105] [72, 105] 1 (by decide) (by decide) (by decide)

/-- A UTF-8 byte length above 65535 makes the serializer raise. -/
theorem text_to_bits_overflow (text text_bytes : List ℕ)
    (henc : utf8Encode text = some text_bytes) (hlen : 65535 < text_bytes.length) :
    text_to_bits text = none := by
  simp only [text_to_bits, henc]
  rw [if_neg (by omega)]

/-- Counterexample to claim C2 as stated: a string of 65536 ASCII
characters is UTF-8-encodable, yet `text_to_bits` raises an uncaught
`OverflowError` (modelled `none`) instead of emitting any bit sequence,
because the length does not fit the 2-byte length field. -/
theorem claim_C2_counterexample : text_to_bits (List.replicate 65536 66) = none :=
  text_to_bits_overflow _ _ (utf8Encode_replicate_ascii 65536 66 (by omega))
    (by rw [List.length_replicate]; omega)

/-- Claim C3 (amended): the synthesizer's per-bit sample count and the
demodulator's block size are both `⌊sample_rate / baud_rate⌋` — truncation,
not nearest-integer rounding — and this value is at least 1 iff
`baud_rate ≤ sample_rate` (nothing enforces it in general).  Every walked
demodulator block indeed has exactly that many samples. -/
theorem claim_C3_samples_per_bit (sr baud : ℕ) (freq f0 f1 : ℝ) (audio : List ℝ)
    (bits : List ℕ) (k : ℕ) (_hsr : 0 < sr) (hbaud : 0 < baud)
    (hd : demodulate audio sr baud f0 f1 = some bits) (hk : k < bits.length) :
    (bit_signal sr baud freq).length = decode_samples_per_bit sr baud ∧
    encode_samples_per_bit sr baud = decode_samples_per_bit sr baud ∧
    Nat.floor ((sr : ℚ) / (baud : ℚ)) = decode_samples_per_bit sr baud ∧
    (1 ≤ decode_samples_per_bit sr baud ↔ baud ≤ sr) ∧
    (((audio.drop (find_start audio (decode_samples_per_bit sr baud))).drop
        (k * decode_samples_per_bit sr baud)).take
        (decode_samples_per_bit sr baud)).length = decode_samples_per_bit sr baud := by
  refine ⟨?_, rfl, ?_, ?_, ?_⟩
  · show ((linspace _ _).map _).length = _
    rw [List.length_map, linspace, List.length_map, List.length_range]
    rfl
  · rw [Nat.floor_div_nat, Nat.floor_natCast]
    rfl
  · rw [decode_samples_per_bit, Nat.le_div_iff_mul_le hbaud, one_mul]
  · simp only [demodulate] at hd
    by_cases hz : decode_samples_per_bit sr baud = 0
    · rw [if_pos hz] at hd
      exact absurd hd (by simp)
    · rw [if_neg hz] at hd
      have hb := (Option.some.inj hd).symm
      rw [hb, List.length_map] at hk
      have hfull := (lt_blockStarts_length_iff _ _ k (by omega)).mp hk
      simp only [List.length_take, List.length_drop] at hfull ⊢
      generalize k * decode_samples_per_bit sr baud = x at hfull ⊢
      omega

/-- Witness for claim C3 at `sample_rate = 2`, `baud_rate = 1`, four zero
samples, block 0. -/
theorem claim_C3_witness :
    (bit_signal 2 1 1070).length = decode_samples_per_bit 2 1 ∧
    encode_samples_per_bit 2 1 = decode_samples_per_bit 2 1 ∧
    Nat.floor (((2 : ℕ) : ℚ) / ((1 : ℕ) : ℚ)) = decode_samples_per_bit 2 1 ∧
    (1 ≤ decode_samples_per_bit 2 1 ↔ 1 ≤ 2) ∧
    ((((List.replicate 4 (0 : ℝ)).drop
        (find_start (List.replicate 4 (0 : ℝ)) (decode_samples_per_bit 2 1))).drop
        (0 * decode_samples_per_bit 2 1)).take (decode_samples_per_bit 2 1)).length =
      decode_samples_per_bit 2 1 :=
  claim_C3_samples_per_bit 2 1 1070 1070 1270 (List.replicate 4 (0 : ℝ)) [0] 0
    (by decide) (by decide) demod_zero_four (by decide)

/-- Counterexample to claim C3 as stated: at the default configuration
(8000 Hz, 300 baud) the code's block size is `int(8000/300) = 26`, while
nearest-integer rounding gives 27; and at 100 Hz, 300 baud the value is 0,
refuting "at least 1". -/
theorem claim_C3_counterexample :
    decode_samples_per_bit 8000 300 = 26 ∧
    round ((8000 : ℚ) / 300) = 27 ∧
    decode_samples_per_bit 100 300 = 0 := by
  refine ⟨by decide, ?_, by decide⟩
  rw [round_eq]
  norm_num [Int.floor_eq_iff]

/-- Claim C5 (amended): when the input text cannot be represented in UTF-8,
`text_to_bits` catches the `UnicodeEncodeError`, prints a message and
returns an empty bit list, and `encode_to_audio` then returns `False`: the
failure is reported through falsy return values, not through an
`EncodingError` surfaced to the caller.  (The original claim, that the
error is fatal and not converted into a non-error return value, fails: see
the counterexample.) -/
theorem claim_C5_encoding_failure (text : List ℕ) (h : utf8Encode text = none) :
    text_to_bits text = some [] ∧ encode_to_audio_result text = some false := by
  have h1 : text_to_bits text = some [] := by simp only [text_to_bits, h]
  exact ⟨h1, by simp only [encode_to_audio_result, h1]⟩

/-- Witness for claim C5 at the lone low surrogate `0xDC00`. -/
theorem claim_C5_witness :
    text_to_bits [0xDC00] = some [] ∧ encode_to_audio_result [0xDC00] = some false :=
  claim_C5_encoding_failure [0xDC00] (by decide)

/-- Counterexample to claim C5 as stated: for the lone high surrogate
`0xD800` (not representable in UTF-8) both functions return normally —
an empty bit list and `False` — instead of failing. -/
theorem claim_C5_counterexample :
    text_to_bits [0xD800] = some [] ∧ encode_to_audio_result [0xD800] = some false := by
  exact ⟨by decide, by decide⟩

/-- Claim C6: a bit sequence of fewer than 48 bits, or one whose packed
bytes contain no 4-byte window equal to `0xAA 0x55 0xAA 0x55`, deserializes
to the empty string, and no error is raised (the function is total). -/
theorem claim_C6_no_marker (bits : List ℕ)
    (h : bits.length < 48 ∨
      ∀ i, i < (bits_to_bytes bits).length →
        ((bits_to_bytes bits).drop i).take 4 ≠ start_marker) :
    bits_to_text bits = [] := by
  by_cases hlt : bits.length < 48
  · simp [bits_to_text, hlt]
  · rcases h with h | h
    · exact absurd h hlt
    · have hfm : findMarker (bits_to_bytes bits) = none := findMarker_eq_none _ h
      simp [bits_to_text, hlt, hfm]

/-- Witness for claim C6: 48 zero bits pack to six zero bytes, which hold
no marker window. -/
theorem claim_C6_witness : bits_to_text (List.replicate 48 0) = [] :=
  claim_C6_no_marker _ (Or.inr (by decide))

/-- Claim C9: the tone detector's score is exactly the squared
sine-reference dot product plus the squared cosine-reference dot product
over the segment's own time span, and is therefore non-negative. -/
theorem claim_C9_correlation_power (segment : List ℝ) (freq sample_rate : ℝ) :
    correlate_with_frequency segment freq sample_rate =
      spec_sin_corr segment freq sample_rate ^ 2 +
        spec_cos_corr segment freq sample_rate ^ 2 ∧
    0 ≤ correlate_with_frequency segment freq sample_rate := by
  constructor
  · simp only [correlate_with_frequency, linspace, List.map_map]
    rw [listDot_map_range, listDot_map_range]
    rfl
  · simp only [correlate_with_frequency]
    positivity

/-- Claim C10: a string whose UTF-8 encoding exceeds 65535 bytes makes
`text_to_bits` raise an uncaught exception (`OverflowError` from the 2-byte
length field, modelled `none`), which propagates through
`encode_to_audio`. -/
theorem claim_C10_length_overflow (text text_bytes : List ℕ)
    (henc : utf8Encode text = some text_bytes) (hlen : 65535 < text_bytes.length) :
    text_to_bits text = none ∧ encode_to_audio_result text = none := by
  have h1 : text_to_bits text = none := text_to_bits_overflow _ _ henc hlen
  exact ⟨h1, by simp only [encode_to_audio_result, h1]⟩

/-- Witness for claim C10 at a 65536-byte ASCII string. -/
theorem claim_C10_witness :
    text_to_bits (List.replicate 65536 65) = none ∧
    encode_to_audio_result (List.replicate 65536 65) = none :=
  claim_C10_length_overflow _ _ (utf8Encode_replicate_ascii 65536 65 (by omega))
    (by rw [List.length_replicate]; omega)

/-- Claim C4: per walked sample block the demodulator emits bit 1 exactly
when the mark-frequency (`freq_1`) power strictly exceeds the
space-frequency (`freq_0`) power, and bit 0 in every other case, including
exact equality of the two scores. -/
theorem claim_C4_bit_decision (audio : List ℝ) (sr baud : ℕ) (f0 f1 : ℝ)
    (bits : List ℕ) (k : ℕ)
    (hd : demodulate audio sr baud f0 f1 = some bits) (hk : k < bits.length) :
    (bits.getD k 2 = 1 ↔
      correlate_with_frequency
          (((audio.drop (find_start audio (decode_samples_per_bit sr baud))).drop
            (k * decode_samples_per_bit sr baud)).take (decode_samples_per_bit sr baud))
          f1 (sr : ℝ) >
        correlate_with_frequency
          (((audio.drop (find_start audio (decode_samples_per_bit sr baud))).drop
            (k * decode_samples_per_bit sr baud)).take (decode_samples_per_bit sr baud))
          f0 (sr : ℝ)) ∧
    (bits.getD k 2 = 0 ↔
      ¬ (correlate_with_frequency
          (((audio.drop (find_start audio (decode_samples_per_bit sr baud))).drop
            (k * decode_samples_per_bit sr baud)).take (decode_samples_per_bit sr baud))
          f1 (sr : ℝ) >
        correlate_with_frequency
          (((audio.drop (find_start audio (decode_samples_per_bit sr baud))).drop
            (k * decode_samples_per_bit sr baud)).take (decode_samples_per_bit sr baud))
          f0 (sr : ℝ))) := by
  simp only [demodulate] at hd
  by_cases hz : decode_samples_per_bit sr baud = 0
  · rw [if_pos hz] at hd
    exact absurd hd (by simp)
  · rw [if_neg hz] at hd
    have hb := (Option.some.inj hd).symm
    subst hb
    rw [List.length_map, blockStarts_length] at hk
    rw [List.getD_eq_getElem?_getD, List.getElem?_map, blockStarts,
      List.getElem?_map, List.getElem?_range hk]
    simp only [Option.map_some', Option.getD_some]
    by_cases hc :
      correlate_with_frequency
          (((audio.drop (find_start audio (decode_samples_per_bit sr baud))).drop
            (k * decode_samples_per_bit sr baud)).take (decode_samples_per_bit sr baud))
          f1 (sr : ℝ) >
        correlate_with_frequency
          (((audio.drop (find_start audio (decode_samples_per_bit sr baud))).drop
            (k * decode_samples_per_bit sr baud)).take (decode_samples_per_bit sr baud))
          f0 (sr : ℝ)
    · rw [if_pos hc]
      exact ⟨iff_of_true rfl hc, iff_of_false (by decide) (not_not_intro hc)⟩
    · rw [if_neg hc]
      exact ⟨iff_of_false (by decide) hc, iff_of_true rfl hc⟩

/-- Witness for claim C4 at four zero samples, two samples per bit,
block 0: equal (zero) powers give bit 0. -/
theorem claim_C4_witness :
    (([0] : List ℕ).getD 0 2 = 1 ↔
      correlate_with_frequency
          ((((List.replicate 4 (0 : ℝ)).drop
            (find_start (List.replicate 4 (0 : ℝ)) (decode_samples_per_bit 2 1))).drop
            (0 * decode_samples_per_bit 2 1)).take (decode_samples_per_bit 2 1))
          1270 ((2 : ℕ) : ℝ) >
        correlate_with_frequency
          ((((List.replicate 4 (0 : ℝ)).drop
            (find_start (List.replicate 4 (0 : ℝ)) (decode_samples_per_bit 2 1))).drop
            (0 * decode_samples_per_bit 2 1)).take (decode_samples_per_bit 2 1))
          1070 ((2 : ℕ) : ℝ)) ∧
    (([0] : List ℕ).getD 0 2 = 0 ↔
      ¬ (correlate_with_frequency
          ((((List.replicate 4 (0 : ℝ)).drop
            (find_start (List.replicate 4 (0 : ℝ)) (decode_samples_per_bit 2 1))).drop
            (0 * decode_samples_per_bit 2 1)).take (decode_samples_per_bit 2 1))
          1270 ((2 : ℕ) : ℝ) >
        correlate_with_frequency
          ((((List.replicate 4 (0 : ℝ)).drop
            (find_start (List.replicate 4 (0 : ℝ)) (decode_samples_per_bit 2 1))).drop
            (0 * decode_samples_per_bit 2 1)).take (decode_samples_per_bit 2 1))
          1070 ((2 : ℕ) : ℝ))) :=
  claim_C4_bit_decision (List.replicate 4 (0 : ℝ)) 2 1 1070 1270 [0] 0
    demod_zero_four (by decide)

/-- Claim C8 (amended): from the effective start the demodulator walks
non-overlapping blocks of `samples_per_bit` samples, emitting one bit per
walked block; block `k` is walked exactly when it ends strictly before the
end of the buffer (`k * spb + spb < total`), so a trailing partial block is
discarded and, when a full block ends exactly at the buffer end, that full
block is discarded too (the original "every full block before the end is
decoded" fails: see the counterexample). -/
theorem claim_C8_block_walk (audio : List ℝ) (sr baud : ℕ) (f0 f1 : ℝ)
    (bits : List ℕ) (k : ℕ)
    (hd : demodulate audio sr baud f0 f1 = some bits) :
    bits.length =
      ((audio.drop (find_start audio (decode_samples_per_bit sr baud))).length -
        decode_samples_per_bit sr baud + decode_samples_per_bit sr baud - 1) /
        decode_samples_per_bit sr baud ∧
    (k < bits.length ↔
      k * decode_samples_per_bit sr baud + decode_samples_per_bit sr baud <
        (audio.drop (find_start audio (decode_samples_per_bit sr baud))).length) := by
  simp only [demodulate] at hd
  by_cases hz : decode_samples_per_bit sr baud = 0
  · rw [if_pos hz] at hd
    exact absurd hd (by simp)
  · rw [if_neg hz] at hd
    have hb := (Option.some.inj hd).symm
    subst hb
    rw [List.length_map]
    exact ⟨blockStarts_length _ _, lt_blockStarts_length_iff _ _ _ (by omega)⟩

/-- Witness for claim C8 at four zero samples, two samples per bit. -/
theorem claim_C8_witness :
    ([0] : List ℕ).length =
      (((List.replicate 4 (0 : ℝ)).drop
        (find_start (List.replicate 4 (0 : ℝ)) (decode_samples_per_bit 2 1))).length -
        decode_samples_per_bit 2 1 + decode_samples_per_bit 2 1 - 1) /
        decode_samples_per_bit 2 1 ∧
    (0 < ([0] : List ℕ).length ↔
      0 * decode_samples_per_bit 2 1 + decode_samples_per_bit 2 1 <
        ((List.replicate 4 (0 : ℝ)).drop
          (find_start (List.replicate 4 (0 : ℝ)) (decode_samples_per_bit 2 1))).length) :=
  claim_C8_block_walk (List.replicate 4 (0 : ℝ)) 2 1 1070 1270 [0] 0 demod_zero_four

/-- Counterexample to claim C8 as stated: four zero samples at two samples
per bit hold exactly two full blocks from the effective start 0, yet only
one bit is emitted — the final full block, which ends exactly at the buffer
end, is discarded by `range(0, total - spb, spb)`. -/
theorem claim_C8_counterexample :
    demodulate (List.replicate 4 (0 : ℝ)) 2 1 1070 1270 = some [0] ∧
    find_start (List.replicate 4 (0 : ℝ)) (decode_samples_per_bit 2 1) = 0 ∧
    (List.replicate 4 (0 : ℝ)).length = 2 * decode_samples_per_bit 2 1 := by
  refine ⟨demod_zero_four, ?_, by simp [decode_samples_per_bit]⟩
  exact find_start_zero _ _ (fun x hx => List.eq_of_mem_replicate hx)

/-! ## UTF-8 decode lemmas -/

theorem validChar_facts (c : ℕ) (h : validChar c = true) :
    c < 0x110000 ∧ ¬ (0xD800 ≤ c ∧ c < 0xE000) := by
  simp only [validChar, Bool.and_eq_true, Bool.not_eq_true', Bool.and_eq_false_iff,
    decide_eq_true_eq, decide_eq_false_iff_not] at h
  omega

/-- Decoding a validly encoded code point followed by anything yields the
code point and continues. -/
theorem decode_ignore_encodeChar (c : ℕ) (hv : validChar c = true) (r : List ℕ) :
    decode_ignore (utf8EncodeChar c ++ r) = c :: decode_ignore r := by
  obtain ⟨hlt, hsur⟩ := validChar_facts c hv
  by_cases h1 : c < 0x80
  · rw [show utf8EncodeChar c = [c] from by rw [utf8EncodeChar, if_pos h1]]
    show decode_ignore (c :: r) = c :: decode_ignore r
    simp only [decode_ignore]
    rw [if_pos h1]
  · by_cases h2 : c < 0x800
    · rw [show utf8EncodeChar c = [0xC0 + c / 0x40, 0x80 + c % 0x40] from by
        rw [utf8EncodeChar, if_neg h1, if_pos h2]]
      show decode_ignore ((0xC0 + c / 0x40) :: (0x80 + c % 0x40) :: r) = c :: decode_ignore r
      simp only [decode_ignore, List.headD_cons, List.tail_cons, List.length_cons]
      rw [if_neg (by omega), if_neg (by omega), if_pos (by omega), if_neg (by omega),
        if_pos (by omega),
        show (0xC0 + c / 0x40 - 0xC0) * 0x40 + (0x80 + c % 0x40 - 0x80) = c from by omega]
    · by_cases h3 : c < 0x10000
      · rw [show utf8EncodeChar c =
            [0xE0 + c / 0x1000, 0x80 + c / 0x40 % 0x40, 0x80 + c % 0x40] from by
          rw [utf8EncodeChar, if_neg h1, if_neg h2, if_pos h3]]
        show decode_ignore
            ((0xE0 + c / 0x1000) :: (0x80 + c / 0x40 % 0x40) :: (0x80 + c % 0x40) :: r) =
          c :: decode_ignore r
        simp only [decode_ignore, List.headD_cons, List.tail_cons, List.length_cons]
        rw [if_neg (by omega), if_neg (by omega), if_neg (by omega), if_pos (by omega),
          if_neg (by omega), if_pos (by omega), if_neg (by omega), if_pos (by omega),
          show (0xE0 + c / 0x1000 - 0xE0) * 0x1000 + (0x80 + c / 0x40 % 0x40 - 0x80) * 0x40 +
            (0x80 + c % 0x40 - 0x80) = c from by omega]
      · rw [show utf8EncodeChar c =
            [0xF0 + c / 0x40000, 0x80 + c / 0x1000 % 0x40, 0x80 + c / 0x40 % 0x40,
             0x80 + c % 0x40] from by
          rw [utf8EncodeChar, if_neg h1, if_neg h2, if_neg h3]]
        show decode_ignore
            ((0xF0 + c / 0x40000) :: (0x80 + c / 0x1000 % 0x40) ::
              (0x80 + c / 0x40 % 0x40) :: (0x80 + c % 0x40) :: r) =
          c :: decode_ignore r
        simp only [decode_ignore, List.headD_cons, List.tail_cons, List.length_cons]
        rw [if_neg (by omega), if_neg (by omega), if_neg (by omega), if_neg (by omega),
          if_pos (by omega), if_neg (by omega), if_pos (by omega), if_neg (by omega),
          if_pos (by omega), if_neg (by omega), if_pos (by omega),
          show (0xF0 + c / 0x40000 - 0xF0) * 0x40000 + (0x80 + c / 0x1000 % 0x40 - 0x80) * 0x1000 +
            (0x80 + c / 0x40 % 0x40 - 0x80) * 0x40 + (0x80 + c % 0x40 - 0x80) = c from by omega]

/-- Decoding a proper prefix of one code point's UTF-8 bytes (a sequence
truncated at end of input) yields nothing: the incomplete bytes are
ignored. -/
theorem decode_ignore_take_encodeChar (c : ℕ) (hv : validChar c = true) (m : ℕ)
    (hm : m < (utf8EncodeChar c).length) :
    decode_ignore ((utf8EncodeChar c).take m) = [] := by
  obtain ⟨hlt, hsur⟩ := validChar_facts c hv
  by_cases h1 : c < 0x80
  · have hEC : utf8EncodeChar c = [c] := by rw [utf8EncodeChar, if_pos h1]
    rw [hEC] at hm ⊢
    simp only [List.length_cons, List.length_nil] at hm
    interval_cases m
    · simp [decode_ignore]
  · by_cases h2 : c < 0x800
    · have hEC : utf8EncodeChar c = [0xC0 + c / 0x40, 0x80 + c % 0x40] := by
        rw [utf8EncodeChar, if_neg h1, if_pos h2]
      rw [hEC] at hm ⊢
      simp only [List.length_cons, List.length_nil] at hm
      interval_cases m
      · simp [decode_ignore]
      · rw [show ([0xC0 + c / 0x40, 0x80 + c % 0x40] : List ℕ).take 1 =
            [0xC0 + c / 0x40] from rfl]
        simp only [decode_ignore, List.length_nil]
        rw [if_neg (by omega), if_neg (by omega), if_pos (by omega), if_pos (by omega)]
    · by_cases h3 : c < 0x10000
      · have hEC : utf8EncodeChar c =
            [0xE0 + c / 0x1000, 0x80 + c / 0x40 % 0x40, 0x80 + c % 0x40] := by
          rw [utf8EncodeChar, if_neg h1, if_neg h2, if_pos h3]
        rw [hEC] at hm ⊢
        simp only [List.length_cons, List.length_nil] at hm
        interval_cases m
        · simp [decode_ignore]
        · rw [show ([0xE0 + c / 0x1000, 0x80 + c / 0x40 % 0x40, 0x80 + c % 0x40] :
              List ℕ).take 1 = [0xE0 + c / 0x1000] from rfl]
          simp only [decode_ignore, List.length_nil]
          rw [if_neg (by omega), if_neg (by omega), if_neg (by omega), if_pos (by omega),
            if_pos (by omega)]
        · rw [show ([0xE0 + c / 0x1000, 0x80 + c / 0x40 % 0x40, 0x80 + c % 0x40] :
              List ℕ).take 2 = [0xE0 + c / 0x1000, 0x80 + c / 0x40 % 0x40] from rfl]
          simp only [decode_ignore, List.headD_cons, List.tail_cons, List.length_cons,
            List.length_nil]
          rw [if_neg (by omega), if_neg (by omega), if_neg (by omega), if_pos (by omega),
            if_neg (by omega), if_pos (by omega), if_pos (by omega)]
      · have hEC : utf8EncodeChar c =
            [0xF0 + c / 0x40000, 0x80 + c / 0x1000 % 0x40, 0x80 + c / 0x40 % 0x40,
             0x80 + c % 0x40] := by
          rw [utf8EncodeChar, if_neg h1, if_neg h2, if_neg h3]
        rw [hEC] at hm ⊢
        simp only [List.length_cons, List.length_nil] at hm
        interval_cases m
        · simp [decode_ignore]
        · rw [show ([0xF0 + c / 0x40000, 0x80 + c / 0x1000 % 0x40, 0x80 + c / 0x40 % 0x40,
              0x80 + c % 0x40] : List ℕ).take 1 = [0xF0 + c / 0x40000] from rfl]
          simp only [decode_ignore, List.length_nil]
          rw [if_neg (by omega), if_neg (by omega), if_neg (by omega), if_neg (by omega),
            if_pos (by omega), if_pos (by omega)]
        · rw [show ([0xF0 + c / 0x40000, 0x80 + c / 0x1000 % 0x40, 0x80 + c / 0x40 % 0x40,
              0x80 + c % 0x40] : List ℕ).take 2 =
              [0xF0 + c / 0x40000, 0x80 + c / 0x1000 % 0x40] from rfl]
          simp only [decode_ignore, List.headD_cons, List.tail_cons, List.length_cons,
            List.length_nil]
          rw [if_neg (by omega), if_neg (by omega), if_neg (by omega), if_neg (by omega),
            if_pos (by omega), if_neg (by omega), if_pos (by omega), if_pos (by omega)]
        · rw [show ([0xF0 + c / 0x40000, 0x80 + c / 0x1000 % 0x40, 0x80 + c / 0x40 % 0x40,
              0x80 + c % 0x40] : List ℕ).take 3 =
              [0xF0 + c / 0x40000, 0x80 + c / 0x1000 % 0x40, 0x80 + c / 0x40 % 0x40] from rfl]
          simp only [decode_ignore, List.headD_cons, List.tail_cons, List.length_cons,
            List.length_nil]
          rw [if_neg (by omega), if_neg (by omega), if_neg (by omega), if_neg (by omega),
            if_pos (by omega), if_neg (by omega), if_pos (by omega), if_neg (by omega),
            if_pos (by omega), if_pos (by omega)]

/-- Decoding any byte-prefix of an encoded text yields a prefix of the
text: complete characters decode exactly, an incomplete trailing character
is dropped. -/
theorem decode_ignore_take (text : List ℕ) : ∀ (tb : List ℕ),
    utf8Encode text = some tb → ∀ m : ℕ, decode_ignore (tb.take m) <+: text := by
  induction text with
  | nil =>
    intro tb henc m
    obtain rfl : ([] : List ℕ) = tb := Option.some.inj henc
    exact ⟨[], by simp [decode_ignore]⟩
  | cons c cs ih =>
    intro tb henc m
    simp only [utf8Encode] at henc
    by_cases hv : validChar c = true
    · rw [if_pos hv] at henc
      cases hcs : utf8Encode cs with
      | none => rw [hcs] at henc; simp at henc
      | some tb' =>
        rw [hcs] at henc
        simp only [Option.map_some', Option.some.injEq] at henc
        subst henc
        by_cases hm : (utf8EncodeChar c).length ≤ m
        · rw [List.take_append_eq_append_take, List.take_of_length_le hm,
            decode_ignore_encodeChar c hv]
          obtain ⟨t, ht⟩ := ih tb' hcs (m - (utf8EncodeChar c).length)
          exact ⟨t, by rw [List.cons_append, ht]⟩
        · rw [List.take_append_eq_append_take,
            show m - (utf8EncodeChar c).length = 0 from by omega, List.take_zero,
            List.append_nil, decode_ignore_take_encodeChar c hv m (by omega)]
          exact ⟨c :: cs, rfl⟩
    · rw [if_neg hv] at henc
      simp at henc

/-- Claim C7: truncating an encoded frame's bit sequence anywhere past the
marker and length field does not make deserialization fail: the length is
clamped to the bytes actually available and the decode of that prefix is
returned, so the result is a prefix of the originally encoded text. -/
theorem claim_C7_truncated_payload (text text_bytes : List ℕ) (k : ℕ)
    (henc : utf8Encode text = some text_bytes)
    (hlen : text_bytes.length ≤ 65535) (hk : 48 ≤ k) :
    bits_to_text (((text_to_bits text).getD []).take k) <+: text := by
  have ht : text_to_bits text = some (bytes_to_bits (start_marker ++
      [text_bytes.length % 256, text_bytes.length / 256 % 256] ++ text_bytes)) := by
    simp only [text_to_bits, henc]
    rw [if_pos (by omega)]
  rw [ht, Option.getD_some]
  have hBb : ∀ b ∈ start_marker ++
      [text_bytes.length % 256, text_bytes.length / 256 % 256] ++ text_bytes, b < 256 := by
    intro b hb
    rcases List.mem_append.mp hb with h | h
    · rcases List.mem_append.mp h with h' | h'
      · simp only [start_marker, List.mem_cons, List.not_mem_nil, or_false] at h'
        omega
      · simp only [List.mem_cons, List.not_mem_nil, or_false] at h'
        rcases h' with h' | h' <;> subst h' <;> exact Nat.mod_lt _ (by omega)
    · exact utf8Encode_lt_256 text text_bytes henc b h
  have hlb : (bytes_to_bits (start_marker ++
      [text_bytes.length % 256, text_bytes.length / 256 % 256] ++ text_bytes)).length =
      8 * (6 + text_bytes.length) := by
    rw [length_bytes_to_bits]
    simp only [List.length_append, start_marker, List.length_cons, List.length_nil]
  simp only [bits_to_text]
  rw [if_neg (by rw [List.length_take, hlb]; omega)]
  rw [bits_to_bytes_take _ hBb k]
  have hpl : (start_marker ++
      [text_bytes.length % 256, text_bytes.length / 256 % 256]).length = 6 := by
    simp [start_marker]
  have hsplit : (start_marker ++
        [text_bytes.length % 256, text_bytes.length / 256 % 256] ++ text_bytes).take (k / 8) =
      start_marker ++ [text_bytes.length % 256, text_bytes.length / 256 % 256] ++
        text_bytes.take (k / 8 - 6) := by
    rw [List.take_append_eq_append_take, List.take_of_length_le (by rw [hpl]; omega), hpl]
  rw [hsplit]
  have hT6 : (start_marker ++ [text_bytes.length % 256, text_bytes.length / 256 % 256] ++
      text_bytes.take (k / 8 - 6)).length = 6 + (text_bytes.take (k / 8 - 6)).length := by
    simp only [List.length_append, start_marker, List.length_cons, List.length_nil]
  have hfm : findMarker (start_marker ++
      [text_bytes.length % 256, text_bytes.length / 256 % 256] ++
      text_bytes.take (k / 8 - 6)) = some 0 := by
    refine findMarker_head _ (by rw [hT6]; omega) ?_
    rw [List.append_assoc]
    exact List.take_left' rfl
  split
  · exact ⟨text, rfl⟩
  · rename_i i heq
    rw [hfm] at heq
    obtain rfl : i = 0 := (Option.some.inj heq).symm
    split
    · exact ⟨text, rfl⟩
    · rename_i hlong
      have hg4 : (start_marker ++
          [text_bytes.length % 256, text_bytes.length / 256 % 256] ++
          text_bytes.take (k / 8 - 6)).getD (0 + 4) 0 = text_bytes.length % 256 := rfl
      have hg5 : (start_marker ++
          [text_bytes.length % 256, text_bytes.length / 256 % 256] ++
          text_bytes.take (k / 8 - 6)).getD (0 + 4 + 1) 0 = text_bytes.length / 256 % 256 := rfl
      have hdrop : (start_marker ++
          [text_bytes.length % 256, text_bytes.length / 256 % 256] ++
          text_bytes.take (k / 8 - 6)).drop (0 + 4 + 2) = text_bytes.take (k / 8 - 6) := rfl
      rw [hg4, hg5, hdrop,
        show text_bytes.length % 256 + text_bytes.length / 256 % 256 * 256 =
          text_bytes.length from by omega]
      split
      · rw [show (start_marker ++
            [text_bytes.length % 256, text_bytes.length / 256 % 256] ++
            text_bytes.take (k / 8 - 6)).length - (0 + 4 + 2) =
            (text_bytes.take (k / 8 - 6)).length from by rw [hT6]; omega,
          List.take_length]
        exact decode_ignore_take text _ henc _
      · rename_i hcl
        rw [hT6, List.length_take] at hcl
        rw [List.take_of_length_le (by rw [List.length_take]; omega)]
        exact decode_ignore_take text _ henc _

/-- Witness for claim C7: the two-character Cyrillic text "АБ" truncated to
56 bits (marker, length and one of the four payload bytes). -/
theorem claim_C7_witness :
    bits_to_text (((text_to_bits [1040, 1041]).getD []).take 56) <+: [1040, 1041] :=
  claim_C7_truncated_payload [1040, 1041] [0xD0, 0x90, 0xD0, 0x91] 56 (by decide)
    (by decide) (by decide)

/-! ## Digital round trip (supporting result)

The purely digital layer round-trips: deserializing the serialized frame of
any encodable text of at most 65535 UTF-8 bytes recovers the text exactly.
The end-to-end round trip through the synthesized waveform (spec claim on
`decode(encode(s))`) additionally depends on the correlation detector's
behaviour on sine blocks and is not settled here. -/

/-- Decoding a full valid encoding recovers the text exactly. -/
theorem decode_ignore_utf8Encode (text : List ℕ) : ∀ tb : List ℕ,
    utf8Encode text = some tb → decode_ignore tb = text := by
  induction text with
  | nil =>
    intro tb henc
    obtain rfl : ([] : List ℕ) = tb := Option.some.inj henc
    simp [decode_ignore]
  | cons c cs ih =>
    intro tb henc
    simp only [utf8Encode] at henc
    by_cases hv : validChar c = true
    · rw [if_pos hv] at henc
      cases hcs : utf8Encode cs with
      | none => rw [hcs] at henc; simp at henc
      | some tb' =>
        rw [hcs] at henc
        simp only [Option.map_some', Option.some.injEq] at henc
        subst henc
        rw [decode_ignore_encodeChar c hv, ih tb' hcs]
    · rw [if_neg hv] at henc
      simp at henc

/-- Only the empty text encodes to the empty byte string. -/
theorem utf8Encode_nil_inv (text : List ℕ) (h : utf8Encode text = some []) :
    text = [] := by
  cases text with
  | nil => rfl
  | cons c cs =>
    simp only [utf8Encode] at h
    by_cases hv : validChar c = true
    · rw [if_pos hv] at h
      cases hcs : utf8Encode cs with
      | none => rw [hcs] at h; simp at h
      | some tb' =>
        rw [hcs] at h
        simp only [Option.map_some', Option.some.injEq] at h
        have h1 : utf8EncodeChar c = [] := (List.append_eq_nil.mp h).1
        have hne : (utf8EncodeChar c).length ≠ 0 := by
          unfold utf8EncodeChar
          split
          · simp
          · split
            · simp
            · split <;> simp
        exact absurd (by rw [h1]; rfl) hne
    · rw [if_neg hv] at h
      simp at h

/-- The digital frame codec round-trips exactly. -/
theorem frame_roundtrip (text text_bytes : List ℕ)
    (henc : utf8Encode text = some text_bytes) (hlen : text_bytes.length ≤ 65535) :
    bits_to_text ((text_to_bits text).getD []) = text := by
  have ht : text_to_bits text = some (bytes_to_bits (start_marker ++
      [text_bytes.length % 256, text_bytes.length / 256 % 256] ++ text_bytes)) := by
    simp only [text_to_bits, henc]
    rw [if_pos (by omega)]
  rw [ht, Option.getD_some]
  have hBb : ∀ b ∈ start_marker ++
      [text_bytes.length % 256, text_bytes.length / 256 % 256] ++ text_bytes, b < 256 := by
    intro b hb
    rcases List.mem_append.mp hb with h | h
    · rcases List.mem_append.mp h with h' | h'
      · simp only [start_marker, List.mem_cons, List.not_mem_nil, or_false] at h'
        omega
      · simp only [List.mem_cons, List.not_mem_nil, or_false] at h'
        rcases h' with h' | h' <;> subst h' <;> exact Nat.mod_lt _ (by omega)
    · exact utf8Encode_lt_256 text text_bytes henc b h
  have hlb : (bytes_to_bits (start_marker ++
      [text_bytes.length % 256, text_bytes.length / 256 % 256] ++ text_bytes)).length =
      8 * (6 + text_bytes.length) := by
    rw [length_bytes_to_bits]
    simp only [List.length_append, start_marker, List.length_cons, List.length_nil]
  have hfull : bits_to_bytes (bytes_to_bits (start_marker ++
      [text_bytes.length % 256, text_bytes.length / 256 % 256] ++ text_bytes)) =
      start_marker ++ [text_bytes.length % 256, text_bytes.length / 256 % 256] ++
        text_bytes := by
    have h1 := bits_to_bytes_take (start_marker ++
      [text_bytes.length % 256, text_bytes.length / 256 % 256] ++ text_bytes) hBb
      (8 * (6 + text_bytes.length))
    rw [List.take_of_length_le (by rw [hlb]) ] at h1
    rw [h1, List.take_of_length_le]
    simp only [List.length_append, start_marker, List.length_cons, List.length_nil]
    omega
  have hT6 : (start_marker ++ [text_bytes.length % 256, text_bytes.length / 256 % 256] ++
      text_bytes).length = 6 + text_bytes.length := by
    simp only [List.length_append, start_marker, List.length_cons, List.length_nil]
  have hfm : findMarker (start_marker ++
      [text_bytes.length % 256, text_bytes.length / 256 % 256] ++ text_bytes) = some 0 := by
    refine findMarker_head _ (by rw [hT6]; omega) ?_
    rw [List.append_assoc]
    exact List.take_left' rfl
  simp only [bits_to_text]
  rw [if_neg (by rw [hlb]; omega), hfull]
  split
  · rename_i heq
    rw [hfm] at heq
    exact absurd heq (by simp)
  · rename_i i heq
    rw [hfm] at heq
    obtain rfl : i = 0 := (Option.some.inj heq).symm
    split
    · rename_i hshort
      rw [hT6] at hshort
      have hzero : text_bytes.length = 0 := by omega
      have : text_bytes = [] := List.length_eq_zero.mp hzero
      subst this
      exact (utf8Encode_nil_inv text henc).symm
    · rename_i hlong
      have hg4 : (start_marker ++
          [text_bytes.length % 256, text_bytes.length / 256 % 256] ++
          text_bytes).getD (0 + 4) 0 = text_bytes.length % 256 := rfl
      have hg5 : (start_marker ++
          [text_bytes.length % 256, text_bytes.length / 256 % 256] ++
          text_bytes).getD (0 + 4 + 1) 0 = text_bytes.length / 256 % 256 := rfl
      have hdrop : (start_marker ++
          [text_bytes.length % 256, text_bytes.length / 256 % 256] ++
          text_bytes).drop (0 + 4 + 2) = text_bytes := rfl
      rw [hg4, hg5, hdrop,
        show text_bytes.length % 256 + text_bytes.length / 256 % 256 * 256 =
          text_bytes.length from by omega]
      rw [if_neg (by rw [hT6]; omega), List.take_length]
      exact decode_ignore_utf8Encode text text_bytes henc
